import Mathlib

/-!
Verification development for the gen-compiler-extension scripts.

The Python sources are embedded shallowly:

* strings are Lean `String`s, but every Python string primitive
  (`strip`, `split`, `in`, `endswith`, `<` on strings, `+`) is modelled by an
  explicit char-list function so that everything evaluates in the kernel;
* the regular expressions of `gen_txt2csv.py` and `gen_clang_txt2csv.py` are
  embedded as data (`RE`) and executed by a backtracking matcher `mrun` that
  mirrors the search order of the Python `re` engine (greedy and lazy
  quantifiers, leftmost match, anchored by `re.match`);
* `merge_riscv_extensions.py` dictionaries are association lists that keep
  insertion order, exactly like Python dicts; `csv` files are pre-parsed into
  `List (List String)` (row lists), since no claim concerns the quoting layer;
* the file system is an association list from path to parsed content, and
  `main` returns `Except String`, so an output table exists only on success.
-/

namespace GenExt

/-! ### Python string primitives, modelled at the level of char lists -/
/-- Python whitespace test (`str.strip`, `\s`); ASCII whitespace suffices for
the compiler listings being parsed. -/
def isWs (c : Char) : Bool := c.isWhitespace

/-- Strip whitespace from both ends of a char list (Python `str.strip()`). -/
def trimList (s : List Char) : List Char :=
  ((s.dropWhile isWs).reverse.dropWhile isWs).reverse

/-- Python `s.strip()`. -/
def pyStrip (s : String) : String := ⟨trimList s.data⟩

/-- Python `a + b` on strings. -/
def strCat (a b : String) : String := ⟨a.data ++ b.data⟩

/-- Worker for `pySplitWs`: accumulates the current token reversed. -/
def wsSplitGo : List Char → List Char → List (List Char)
  | acc, [] => if acc.isEmpty then [] else [acc.reverse]
  | acc, c :: rest =>
    if isWs c then
      if acc.isEmpty then wsSplitGo [] rest else acc.reverse :: wsSplitGo [] rest
    else wsSplitGo (c :: acc) rest

/-- Python `s.split()` (no separator): split on whitespace runs, no empties. -/
def pySplitWs (s : String) : List String := (wsSplitGo [] s.data).map fun l => ⟨l⟩

/-- Worker for `pySplitChar`. -/
def chSplitGo (sep : Char) : List Char → List Char → List (List Char)
  | acc, [] => [acc.reverse]
  | acc, c :: rest =>
    if c = sep then acc.reverse :: chSplitGo sep [] rest
    else chSplitGo sep (c :: acc) rest

/-- Python `s.split(sep)` for a one-char separator: keeps empty fields. -/
def pySplitChar (sep : Char) (s : String) : List String :=
  (chSplitGo sep [] s.data).map fun l => ⟨l⟩

/-- Substring test at every position (worker for `pyInStr`). -/
def infixAt : List Char → List Char → Bool
  | needle, [] => needle.isEmpty
  | needle, hay =>
    needle.isPrefixOf hay ||
      match hay with
      | [] => false
      | _ :: t => infixAt needle t

/-- Python `needle in hay` on strings. -/
def pyInStr (needle hay : String) : Bool := infixAt needle.data hay.data

/-- Python `s.endswith(c)` for a one-char suffix. -/
def pyEndsWith (s : String) (c : Char) : Bool := s.data.getLast? = some c

/-- Python `' '.join(parts)`. -/
def joinSpace (parts : List String) : String :=
  ⟨joinSpaceList (parts.map String.data)⟩
where
  joinSpaceList : List (List Char) → List Char
    | [] => []
    | [x] => x
    | x :: xs => x ++ ' ' :: joinSpaceList xs

/-! ### Python string comparison (code-point lexicographic) -/
/-- Python `<` on strings: lexicographic comparison by code point. -/
def pyLtList : List Char → List Char → Bool
  | _, [] => false
  | [], _ :: _ => true
  | a :: s, b :: t =>
    decide (a.toNat < b.toNat) || (decide (a.toNat = b.toNat) && pyLtList s t)

/-- Python `<` lifted to `String`. -/
def pyStrLt (a b : String) : Bool := pyLtList a.data b.data

/-- Python `<` on a pair, as used by `sorted(..., key=lambda k: (name, version))`. -/
def pyTupLt (a b : String × String) : Bool :=
  pyStrLt a.1 b.1 || (decide (a.1 = b.1) && pyStrLt a.2 b.2)

/-- Reflexive closure of `pyTupLt`: the total preorder that a stable sort by
the Python tuple key realises. -/
def pairLe (a b : String × String) : Bool := pyTupLt a b || decide (a = b)

/-! ### A backtracking regular-expression engine
The two scripts use `re.match` with patterns built from `\s`, `\S`, `.`,
literal characters, capture groups, greedy `*`/`+` and the lazy `*?`.  The
patterns are embedded as `RE` values and run by `mrun`, a continuation-passing
backtracking matcher that explores alternatives in exactly the order the
Python `re` engine does: a greedy star first tries one more iteration, a lazy
star first tries zero iterations, and failure backtracks.  `fuel` bounds the
depth of the search; every starred sub-pattern of the two scripts consumes at
least one character per iteration and the patterns are small, so the fuel
`reFullMatch` supplies is more than any search path can use. -/
inductive RE where
  | eps : RE
  | cls : (Char → Bool) → RE
  | cat : RE → RE → RE
  | starG : RE → RE
  | starL : RE → RE
  | grp : Nat → RE → RE

/-- Captured groups: group index paired with the matched characters. -/
abbrev Caps := List (Nat × List Char)

/-- The backtracking matcher (see the section comment).  Recursion is
structural on `fuel`; every pattern constructor spends one unit, and running
out of fuel is a failure, so with enough fuel the result is exactly the
Python search result. -/
def mrun : Nat → RE → List Char → Caps → (List Char → Caps → Option Caps) → Option Caps
  | 0, _, _, _, _ => none
  | _ + 1, .eps, s, caps, k => k s caps
  | _ + 1, .cls _, [], _, _ => none
  | _ + 1, .cls p, c :: rest, caps, k => if p c then k rest caps else none
  | fuel + 1, .cat r₁ r₂, s, caps, k =>
    mrun fuel r₁ s caps (fun s' caps' => mrun fuel r₂ s' caps' k)
  | fuel + 1, .starG r, s, caps, k =>
    Option.orElse
      (mrun fuel r s caps (fun s' caps' => mrun fuel (.starG r) s' caps' k))
      (fun _ => k s caps)
  | fuel + 1, .starL r, s, caps, k =>
    Option.orElse (k s caps)
      (fun _ => mrun fuel r s caps (fun s' caps' => mrun fuel (.starL r) s' caps' k))
  | fuel + 1, .grp i r, s, caps, k =>
    mrun fuel r s caps (fun s' caps' => k s' ((i, s.take (s.length - s'.length)) :: caps'))

/-- Anchored full match (`re.match` with a pattern ending in `$`, applied to a
line without a trailing newline).  The fuel bound dominates the depth of any
search path for the fixed patterns of the two scripts. -/
def reFullMatch (r : RE) (s : String) : Option Caps :=
  mrun ((s.data.length + 2) * 64) r s.data []
    (fun rest caps => if rest.isEmpty then some caps else none)

/-- Text of capture group `i` (`match.groups()`), empty if absent. -/
def capGroup (i : Nat) (caps : Caps) : String := ⟨(caps.lookup i).getD []⟩

/-- Character class `\s`. -/
def wsC : RE := .cls isWs

/-- Character class `\S`. -/
def nonwsC : RE := .cls fun c => !isWs c

/-- Character class `.` (anything but a newline). -/
def dotC : RE := .cls fun c => decide (c ≠ '\n')

/-- A literal character. -/
def litC (c : Char) : RE := .cls fun d => decide (d = c)

/-- Greedy `+`, desugared to `r r*`. -/
def plusG (r : RE) : RE := .cat r (.starG r)

/-- The pattern fragment `\s*`. -/
def wsStar : RE := .starG wsC

/-- The pattern fragment `\s+`. -/
def wsPlus : RE := plusG wsC

/-- The pattern fragment `\S+`. -/
def nonwsPlus : RE := plusG nonwsC

/-- A literal string, character by character. -/
def litStr (s : String) : RE := s.data.foldr (fun c r => .cat (litC c) r) .eps

/-! ### Declarative match semantics and soundness of the matcher -/
/-- `RMatch r s s' caps caps'`: pattern `r` consumes a prefix of `s` leaving
`s'`, extending the capture list from `caps` to `caps'`. -/
inductive RMatch : RE → List Char → List Char → Caps → Caps → Prop where
  | eps {s caps} : RMatch .eps s s caps caps
  | cls {p : Char → Bool} {c s caps} (h : p c = true) : RMatch (.cls p) (c :: s) s caps caps
  | cat {r₁ r₂ s s₁ s₂ caps caps₁ caps₂} (h₁ : RMatch r₁ s s₁ caps caps₁)
      (h₂ : RMatch r₂ s₁ s₂ caps₁ caps₂) : RMatch (.cat r₁ r₂) s s₂ caps caps₂
  | starGNil {r s caps} : RMatch (.starG r) s s caps caps
  | starGCons {r s s₁ s₂ caps caps₁ caps₂} (h₁ : RMatch r s s₁ caps caps₁)
      (h₂ : RMatch (.starG r) s₁ s₂ caps₁ caps₂) : RMatch (.starG r) s s₂ caps caps₂
  | starLNil {r s caps} : RMatch (.starL r) s s caps caps
  | starLCons {r s s₁ s₂ caps caps₁ caps₂} (h₁ : RMatch r s s₁ caps caps₁)
      (h₂ : RMatch (.starL r) s₁ s₂ caps₁ caps₂) : RMatch (.starL r) s s₂ caps caps₂
  | grp {i r s s' caps caps'} (h : RMatch r s s' caps caps') :
      RMatch (.grp i r) s s' caps ((i, s.take (s.length - s'.length)) :: caps')

/-- The apostrophe character (written via its code point). -/
def aposChar : Char := Char.ofNat 39

/-- The boilerplate line `Use -march to specify the target's extension.`
shared by both skip lists. -/
def use_march_line : String :=
  strCat "Use -march to specify the target" (strCat ⟨[aposChar]⟩ "s extension.")

/-! ### gen_clang_txt2csv.py (strict mode)

The per-line body of `main`: the raw line (without its trailing newline) is
checked against the skip list and the skip patterns, then matched against
`^\s*(\S+)\s+(\S+)\s+(.+)$`; on success the row
`[name, version, description.strip()]` is appended. -/

namespace gen_clang_txt2csv

/-- The data pattern `^\s*(\S+)\s+(\S+)\s+(.+)$`. -/
def pattern : RE :=
  .cat wsStar (.cat (.grp 1 nonwsPlus) (.cat wsPlus (.cat (.grp 2 nonwsPlus)
    (.cat wsPlus (.grp 3 (plusG dotC))))))

/-- The `skip_lines` list of the script. -/
def skip_lines : List String :=
  ["All available -march extensions for RISC-V",
   "Experimental extensions",
   use_march_line,
   "For example, clang"]

/-- The header skip pattern `^\s*Name\s+Version\s+Description\s*$`. -/
def header_re : RE :=
  .cat wsStar (.cat (litStr "Name") (.cat wsPlus (.cat (litStr "Version")
    (.cat wsPlus (.cat (litStr "Description") wsStar)))))

/-- The substring-based skip test (`any(skip_text in line ...)`). -/
def is_skip_line (line : String) : Bool := skip_lines.any fun t => pyInStr t line

/-- The pattern-based skip test (`^\s*$` or the header line). -/
def is_skip_pattern (line : String) : Bool :=
  (reFullMatch wsStar line).isSome || (reFullMatch header_re line).isSome

/-- Rows appended for one input line. -/
def process_line (line : String) : List (List String) :=
  if is_skip_line line then []
  else if is_skip_pattern line then []
  else
    match reFullMatch pattern line with
    | some caps => [[capGroup 1 caps, capGroup 2 caps, pyStrip (capGroup 3 caps)]]
    | none => []

/-- The whole `rows` table for an input file, header included. -/
def rows (input : List String) : List (List String) :=
  ["Name", "Version", "Description"] :: input.flatMap process_line

end gen_clang_txt2csv

/-- Modelled from the spec (strict-mode contract of the line classifier, used
to compare the code against the spec text): name is the first
whitespace-delimited token, version the second, and the description is the
rest of the line once the overall line is trimmed. -/
def strict_fields (line : String) : String × String × String :=
  let s := line.data
  let nonWs : Char → Bool := fun c => !isWs c
  let afterName := ((s.dropWhile isWs).dropWhile nonWs).dropWhile isWs
  (⟨(s.dropWhile isWs).takeWhile nonWs⟩,
   ⟨afterName.takeWhile nonWs⟩,
   ⟨trimList (afterName.dropWhile nonWs)⟩)

/-! ### gen_txt2csv.py (lenient mode)

The per-line body of `main`: the line is stripped, checked against the skip
list and skip patterns, matched against
`^\s*(\S+(?:\s+\S+)*?)\s+(\S+(?:,\s*\S+)*)\s*(.*)$`, the two repair
heuristics are applied, and the (possibly comma-expanded) rows appended; on
match failure a non-empty line degrades to the split-based fallback. -/

namespace gen_txt2csv

/-- The data pattern `^\s*(\S+(?:\s+\S+)*?)\s+(\S+(?:,\s*\S+)*)\s*(.*)$`. -/
def pattern : RE :=
  .cat wsStar
    (.cat (.grp 1 (.cat nonwsPlus (.starL (.cat wsPlus nonwsPlus))))
      (.cat wsPlus
        (.cat (.grp 2 (.cat nonwsPlus (.starG (.cat (litC ',') (.cat wsStar nonwsPlus)))))
          (.cat wsStar (.grp 3 (.starG dotC))))))

/-- The `skip_lines` list of the script. -/
def skip_lines : List String :=
  ["All available -march extensions for RISC-V",
   "Experimental ",
   "Supported ",
   use_march_line,
   "For example, clang"]

/-- The gcc header skip pattern `^\s*Name\s+Version\s*$`. -/
def header_gcc : RE :=
  .cat wsStar (.cat (litStr "Name") (.cat wsPlus (.cat (litStr "Version") wsStar)))

/-- The clang header skip pattern `^\s*Name\s+Version\s+Description\s*$`. -/
def header_clang : RE :=
  .cat wsStar (.cat (litStr "Name") (.cat wsPlus (.cat (litStr "Version")
    (.cat wsPlus (.cat (litStr "Description") wsStar)))))

/-- The substring-based skip test. -/
def is_skip_line (line : String) : Bool := skip_lines.any fun t => pyInStr t line

/-- The pattern-based skip test (empty line or either header line). -/
def is_skip_pattern (line : String) : Bool :=
  (reFullMatch wsStar line).isSome || (reFullMatch header_gcc line).isSome ||
    (reFullMatch header_clang line).isSome

/-- Test `description.strip() and description.strip()[0].isdigit()`. -/
def strip_head_digit (description : String) : Bool :=
  match (pyStrip description).data with
  | [] => false
  | c :: _ => c.isDigit

/-- The new-GCC-format repair: if the version ends in a comma and the
description starts with a digit, glue them back together and clear the
description. -/
def gcc_format_fix (version description : String) : String × String :=
  if pyEndsWith version ',' && strip_head_digit description then
    (strCat version description, "")
  else (version, description)

/-- The move-version-out-of-name heuristic (its inner branch is dead code in
the script, because the regex never produces an all-whitespace version, but
it is embedded as written). -/
def move_version_from_name (name version description : String) : String × String :=
  if (pyStrip description).data.isEmpty && name.data.contains ' ' then
    let parts := pySplitWs name
    if parts.length ≥ 2 then
      if (pyStrip version).data.isEmpty then
        (joinSpace parts.dropLast, parts.getLastD "")
      else (name, version)
    else (name, version)
  else (name, version)

/-- Row emission: comma-separated versions expand to one row per non-empty
stripped sub-version, otherwise a single row; all fields stripped. -/
def emit_rows (name version description : String) : List (List String) :=
  if version.data.contains ',' then
    ((pySplitChar ',' version).map pyStrip).filterMap fun v =>
      if v.data.isEmpty then none else some [pyStrip name, v, pyStrip description]
  else [[pyStrip name, pyStrip version, pyStrip description]]

/-- The classifier stage: skip tests, the regex, and the two repair
heuristics, producing the (name, version, description) about to be emitted. -/
def classify (line : String) : Option (String × String × String) :=
  if is_skip_line line then none
  else if is_skip_pattern line then none
  else
    (reFullMatch pattern line).map fun caps =>
      let vd := gcc_format_fix (capGroup 2 caps) (capGroup 3 caps)
      let nv := move_version_from_name (capGroup 1 caps) vd.1 vd.2
      (nv.1, nv.2, vd.2)

/-- The fallback for non-empty lines that do not match the pattern. -/
def fallback_rows (line : String) : List (List String) :=
  let parts := pySplitWs line
  if parts.length ≥ 2 then [[joinSpace parts.dropLast, parts.getLastD "", ""]]
  else []

/-- Rows appended for one raw input line. -/
def process_line (raw : String) : List (List String) :=
  let line := pyStrip raw
  match classify line with
  | some nvd => emit_rows nvd.1 nvd.2.1 nvd.2.2
  | none =>
    if is_skip_line line || is_skip_pattern line then []
    else if line.data.isEmpty then []
    else fallback_rows line

/-- The whole `rows` table for an input file, header included. -/
def rows (input : List String) : List (List String) :=
  ["Name", "Version", "Description"] :: input.flatMap process_line

end gen_txt2csv

/-! ### merge_riscv_extensions.py

CSV files are modelled post-parsing, as row lists.  Python dicts become
association lists that keep insertion order and update in place, exactly the
observable dict behaviour the script relies on. -/

namespace merge_riscv_extensions

/-- A parsed CSV file: a list of rows, each row a list of cell strings. -/
abbrev Csv := List (List String)

/-- One `extensions[key]` value of `read_csv_file`. -/
structure ExtData where
  name : String
  version : String
  description : String
deriving DecidableEq, Repr

/-- One `all_extensions[key]` value of `merge_csv_files`; `sources` is the
insertion-ordered key set of the `sources` dict. -/
structure MergeEntry where
  name : String
  version : String
  description : String
  sources : List String
deriving DecidableEq, Repr

/-- Python dict assignment `d[k] = v`: overwrite in place, else append. -/
def dict_insert (k : String) (v : ExtData) : List (String × ExtData) → List (String × ExtData)
  | [] => [(k, v)]
  | (k', v') :: rest =>
    if k' = k then (k, v) :: rest else (k', v') :: dict_insert k v rest

/-- The unique key `f"{name}-{version}"`. -/
def make_key (name version : String) : String := strCat name (strCat "-" version)

/-- The body of the row loop of `read_csv_file`: short rows are skipped,
name and version are stripped, and the description is kept only when the
`Description` column exists and the row is long enough to hold it. -/
def read_row_step (has_description : Bool) (exts : List (String × ExtData))
    (row : List String) : List (String × ExtData) :=
  if row.length < 2 then exts
  else
    let name := pyStrip (row.getD 0 "")
    let version := pyStrip (row.getD 1 "")
    let descr :=
      if has_description then (if row.length > 2 then row.getD 2 "" else "") else ""
    dict_insert (make_key name version) ⟨name, version, descr⟩ exts

/-- The row loop of `read_csv_file`, given the `Description`-column flag. -/
def read_rows (has_description : Bool) (rows : Csv) : List (String × ExtData) :=
  rows.foldl (read_row_step has_description) []

/-- `read_csv_file` on a parsed CSV; `none` models the `StopIteration` that
`next(reader)` raises on a file with no header row. -/
def read_csv_file : Csv → Option (List (String × ExtData))
  | [] => none
  | headers :: rows => some (read_rows (headers.contains "Description") rows)

/-- `sources[column_name] = True`: insertion-ordered set insert. -/
def set_insert (c : String) (l : List String) : List String :=
  if l.contains c then l else l ++ [c]

/-- In-place update of the entry stored under `k` (no-op when absent). -/
def upd_entry (k : String) (f : MergeEntry → MergeEntry) :
    List (String × MergeEntry) → List (String × MergeEntry)
  | [] => []
  | (k', e) :: rest =>
    if k' = k then (k', f e) :: rest else (k', e) :: upd_entry k f rest

/-- The body of the inner loop of `merge_csv_files` for one
`(key, ext_data)` item of one source. -/
def add_one (column_name : String) (acc : List (String × MergeEntry))
    (ke : String × ExtData) : List (String × MergeEntry) :=
  let step :=
    match acc.lookup ke.1 with
    | none => acc ++ [(ke.1, ⟨ke.2.name, ke.2.version, ke.2.description, []⟩)]
    | some e =>
      if e.description = "" ∧ ke.2.description ≠ "" then
        upd_entry ke.1 (fun e' => { e' with description := ke.2.description }) acc
      else acc
  upd_entry ke.1 (fun e' => { e' with sources := set_insert column_name e'.sources }) step

/-- Merging one source file into `all_extensions`. -/
def add_file (acc : List (String × MergeEntry)) (column_name : String)
    (exts : List (String × ExtData)) : List (String × MergeEntry) :=
  exts.foldl (add_one column_name) acc

/-- The accumulation over all sources (`all_extensions` after the read loop). -/
def build_all (files : List (String × List (String × ExtData))) :
    List (String × MergeEntry) :=
  files.foldl (fun acc ce => add_file acc ce.1 ce.2) []

/-- Reading every source in order; any unreadable source fails the merge. -/
def read_all : List (String × Csv) → Option (List (String × List (String × ExtData)))
  | [] => some []
  | (c, csv) :: rest => do
    let e ← read_csv_file csv
    let r ← read_all rest
    some ((c, e) :: r)

/-- The `(name, version)` sort key of an extension key (`lambda k: (...)`). -/
def nv (all : List (String × MergeEntry)) (k : String) : String × String :=
  match all.lookup k with
  | some e => (e.name, e.version)
  | none => ("", "")

/-- The comparison realised by `sorted(..., key=lambda k: (name, version))`. -/
def key_le (all : List (String × MergeEntry)) (k₁ k₂ : String) : Bool :=
  pairLe (nv all k₁) (nv all k₂)

/-- One output row: name, version, optional description, then the Y/N cell
for every source column. -/
def out_row (all : List (String × MergeEntry)) (include_description : Bool)
    (file_sources : List String) (k : String) : List String :=
  match all.lookup k with
  | some e =>
    [e.name, e.version] ++ (if include_description then [e.description] else []) ++
      file_sources.map (fun s => if e.sources.contains s then "Y" else "N")
  | none => []

/-- The output table built from the accumulated `all_extensions` and the
column list (the write phase of `merge_csv_files`).  Python `sorted` is a
stable sort by the `(name, version)` key; it is modelled by the stable
insertion sort under the reflexive total preorder `key_le`. -/
def merge_output (file_sources : List String)
    (all : List (String × MergeEntry)) (include_description : Bool) :
    List (List String) :=
  let headers :=
    ["Name", "Version"] ++ (if include_description then ["Description"] else []) ++
      file_sources
  let sorted_keys :=
    (all.map Prod.fst).insertionSort fun k₁ k₂ => key_le all k₁ k₂ = true
  headers :: sorted_keys.map (out_row all include_description file_sources)

/-- `merge_csv_files` over pre-parsed sources paired with their column
names; returns the full output table (header row first). -/
def merge_csv_files (inputs : List (String × Csv)) (include_description : Bool) :
    Option (List (List String)) :=
  (read_all inputs).map fun files =>
    merge_output (inputs.map Prod.fst) (build_all files) include_description

/-- Python `os.path.basename`. -/
def py_basename (path : String) : String := (pySplitChar '/' path).getLastD ""

/-- The stem of `os.path.splitext`: everything before the last dot, where
leading dots of the base name do not count as separators. -/
def stem_chars (base : List Char) : List Char :=
  let lead := base.takeWhile fun c => c = '.'
  let rest := base.dropWhile fun c => c = '.'
  if rest.contains '.' then
    lead ++ ((rest.reverse.dropWhile fun c => decide (c ≠ '.')).tail).reverse
  else base

/-- `os.path.splitext(os.path.basename(path))[0]`: the displayed column name. -/
def column_name_of (path : String) : String := ⟨stem_chars (py_basename path).data⟩

/-- First input path that is not a file of the file system. -/
def first_missing (fsys : List (String × Csv)) (files : List String) : Option String :=
  files.find? fun f => (fsys.lookup f).isNone

/-- The `main` driver over a file system mapping paths to parsed contents:
the empty-input guard, the existence check of every input, then the merge.
The output table exists only in the `Except.ok` case, so an error aborts
with nothing written (the script validates and reads every source before it
opens the output). -/
def main (fsys : List (String × Csv)) (input_files : List String)
    (no_description : Bool) : Except String (List (List String)) :=
  if input_files.isEmpty then
    .error "Error: No input files found after expanding wildcards"
  else
    match first_missing fsys input_files with
    | some f =>
      .error (strCat "Error: Input file " (strCat f " does not exist or is not a file."))
    | none =>
      match merge_csv_files
          (input_files.map fun f => (column_name_of f, (fsys.lookup f).getD []))
          (!no_description) with
      | some out => .ok out
      | none => .error "StopIteration"

/-! ### Lookup characterizations of the dict operations -/
/-- The Y/N string the output writes for key `k` and source column `s`. -/
def flag_cell (all : List (String × MergeEntry)) (k s : String) : String :=
  match all.lookup k with
  | some e => if e.sources.contains s then "Y" else "N"
  | none => "N"

/-- Source `s` is recorded as containing key `k`. -/
def flagP (all : List (String × MergeEntry)) (k s : String) : Prop :=
  ∃ e, all.lookup k = some e ∧ s ∈ e.sources

/-- Key `k` is present in the accumulated dict. -/
def has_key (all : List (String × MergeEntry)) (k : String) : Prop :=
  (all.lookup k).isSome = true

/-- The stored description of key `k`, if the key is present. -/
def desc_of (all : List (String × MergeEntry)) (k : String) : Option String :=
  (all.lookup k).map MergeEntry.description

/-- The entry stored for a key after one `(key, ext_data)` item is folded in:
fresh on a miss, otherwise the description-repair followed by the source
mark. -/
def step_entry (c : String) (old : Option MergeEntry) (ext : ExtData) : MergeEntry :=
  match old with
  | none => ⟨ext.name, ext.version, ext.description, set_insert c []⟩
  | some e =>
    let e' :=
      if e.description = "" ∧ ext.description ≠ "" then
        { e with description := ext.description }
      else e
    { e' with sources := set_insert c e'.sources }

/-- First-non-empty combination of an optional stored description with an
incoming one. -/
def combineD : Option String → String → String
  | none, d => d
  | some d₀, d => if d₀ = "" ∧ d ≠ "" then d else d₀

/-! ### Sortedness of the output rows -/
/-- Row order induced by the Python sort key: compare the `(name, version)`
cells (the first two cells of every data row). -/
def row_le (r₁ r₂ : List String) : Prop :=
  pairLe (r₁.getD 0 "", r₁.getD 1 "") (r₂.getD 0 "", r₂.getD 1 "") = true

/-- The fresh entry a single source contributes for a key. -/
def lift_entry (c : String) (ke : String × ExtData) : String × MergeEntry :=
  (ke.1, ⟨ke.2.name, ke.2.version, ke.2.description, [c]⟩)

/-- The merged key dict of a list of sources (`all_extensions` after the
read loop), or `none` if some source is unreadable. -/
def merged_index (inputs : List (String × Csv)) :
    Option (List (String × MergeEntry)) :=
  (read_all inputs).map build_all

end merge_riscv_extensions

end GenExt

/-! ## Proof development -/

namespace GenExt

theorem pyLtList_irrefl (s : List Char) : pyLtList s s = false := by
  induction s with
  | nil => rfl
  | cons a t ih => simp [pyLtList, ih]

theorem pyLtList_trans {a b c : List Char} (h₁ : pyLtList a b = true)
    (h₂ : pyLtList b c = true) : pyLtList a c = true := by
  induction a generalizing b c with
  | nil =>
    cases b with
    | nil => simp [pyLtList] at h₁
    | cons b bt =>
      cases c with
      | nil => simp [pyLtList] at h₂
      | cons c ct => simp [pyLtList]
  | cons x xt ih =>
    cases b with
    | nil => simp [pyLtList] at h₁
    | cons y yt =>
      cases c with
      | nil => simp [pyLtList] at h₂
      | cons z zt =>
        simp only [pyLtList, Bool.or_eq_true, Bool.and_eq_true,
          decide_eq_true_eq] at h₁ h₂ ⊢
        rcases h₁ with h₁ | ⟨h₁e, h₁l⟩ <;> rcases h₂ with h₂ | ⟨h₂e, h₂l⟩
        · exact Or.inl (Nat.lt_trans h₁ h₂)
        · exact Or.inl (h₂e ▸ h₁)
        · exact Or.inl (h₁e ▸ h₂)
        · exact Or.inr ⟨h₁e.trans h₂e, ih h₁l h₂l⟩

theorem pyLtList_conn {a b : List Char} (h₁ : pyLtList a b = false)
    (h₂ : pyLtList b a = false) : a = b := by
  induction a generalizing b with
  | nil =>
    cases b with
    | nil => rfl
    | cons y yt => simp [pyLtList] at h₁
  | cons x xt ih =>
    cases b with
    | nil => simp [pyLtList] at h₂
    | cons y yt =>
      simp only [pyLtList, Bool.or_eq_false_iff, Bool.and_eq_false_iff,
        decide_eq_false_iff_not, decide_eq_true_eq] at h₁ h₂
      obtain ⟨hxy, h₁r⟩ := h₁
      obtain ⟨hyx, h₂r⟩ := h₂
      have hx : x.toNat = y.toNat := by omega
      have hchar : x = y := Char.ext (UInt32.toNat.inj hx)
      subst hchar
      rcases h₁r with h | h
      · omega
      · rcases h₂r with h' | h'
        · omega
        · exact congrArg (x :: ·) (ih h h')

theorem pyStrLt_trans {a b c : String} (h₁ : pyStrLt a b = true)
    (h₂ : pyStrLt b c = true) : pyStrLt a c = true :=
  pyLtList_trans h₁ h₂

theorem pyStrLt_conn {a b : String} (h₁ : pyStrLt a b = false)
    (h₂ : pyStrLt b a = false) : a = b := by
  cases a; cases b
  exact congrArg String.mk (pyLtList_conn h₁ h₂)

theorem pyStrLt_irrefl (a : String) : pyStrLt a a = false := pyLtList_irrefl _

theorem pyTupLt_trans {a b c : String × String} (h₁ : pyTupLt a b = true)
    (h₂ : pyTupLt b c = true) : pyTupLt a c = true := by
  simp only [pyTupLt, Bool.or_eq_true, Bool.and_eq_true, decide_eq_true_eq] at h₁ h₂ ⊢
  rcases h₁ with h₁ | ⟨h₁e, h₁l⟩ <;> rcases h₂ with h₂ | ⟨h₂e, h₂l⟩
  · exact Or.inl (pyStrLt_trans h₁ h₂)
  · exact Or.inl (h₂e ▸ h₁)
  · exact Or.inl (h₁e ▸ h₂)
  · exact Or.inr ⟨h₁e.trans h₂e, pyStrLt_trans h₁l h₂l⟩

theorem pyTupLt_conn {a b : String × String} (h₁ : pyTupLt a b = false)
    (h₂ : pyTupLt b a = false) : a = b := by
  simp only [pyTupLt, Bool.or_eq_false_iff, Bool.and_eq_false_iff,
    decide_eq_false_iff_not, decide_eq_true_eq] at h₁ h₂
  obtain ⟨h₁l, h₁r⟩ := h₁
  obtain ⟨h₂l, h₂r⟩ := h₂
  have he : a.1 = b.1 := pyStrLt_conn h₁l h₂l
  have he2 : a.2 = b.2 := by
    rcases h₁r with h | h
    · exact absurd he h
    · rcases h₂r with h' | h'
      · exact absurd he.symm h'
      · exact pyStrLt_conn h h'
  exact Prod.ext he he2

theorem pairLe_trans (a b c : String × String) (h₁ : pairLe a b = true)
    (h₂ : pairLe b c = true) : pairLe a c = true := by
  simp only [pairLe, Bool.or_eq_true, decide_eq_true_eq] at h₁ h₂ ⊢
  rcases h₁ with h₁ | rfl
  · rcases h₂ with h₂ | rfl
    · exact Or.inl (pyTupLt_trans h₁ h₂)
    · exact Or.inl h₁
  · exact h₂

theorem pairLe_total (a b : String × String) : (pairLe a b || pairLe b a) = true := by
  simp only [pairLe, Bool.or_eq_true, decide_eq_true_eq]
  by_cases h₁ : pyTupLt a b = true
  · exact Or.inl (Or.inl h₁)
  · by_cases h₂ : pyTupLt b a = true
    · exact Or.inr (Or.inl h₂)
    · exact Or.inl (Or.inr (pyTupLt_conn (Bool.of_not_eq_true h₁) (Bool.of_not_eq_true h₂)))

theorem orElse_eq_some {α : Type} {a : Option α} {b : Unit → Option α} {r : α}
    (h : Option.orElse a b = some r) : a = some r ∨ b () = some r := by
  cases a with
  | none => exact Or.inr h
  | some v => exact Or.inl h

/-- Soundness of the matcher: a successful run decomposes into a declarative
match followed by a successful continuation. -/
theorem mrun_sound (fuel : Nat) :
    ∀ (r : RE) (s : List Char) (caps : Caps) (k : List Char → Caps → Option Caps)
      (res : Caps), mrun fuel r s caps k = some res →
      ∃ s' caps', RMatch r s s' caps caps' ∧ k s' caps' = some res := by
  induction fuel using Nat.strong_induction_on with
  | _ fuel ihf =>
  cases fuel with
  | zero => intro r s caps k res h; simp [mrun] at h
  | succ n =>
  intro r
  induction r with
  | eps =>
    intro s caps k res h
    exact ⟨s, caps, .eps, h⟩
  | cls p =>
    intro s caps k res h
    cases s with
    | nil => simp [mrun] at h
    | cons c rest =>
      simp only [mrun] at h
      by_cases hp : p c = true
      · rw [if_pos hp] at h
        exact ⟨rest, caps, .cls hp, h⟩
      · rw [if_neg hp] at h
        cases h
  | cat r₁ r₂ ih₁ ih₂ =>
    intro s caps k res h
    simp only [mrun] at h
    obtain ⟨s₁, caps₁, m₁, h₁⟩ := ihf n (Nat.lt_succ_self n) r₁ s caps _ res h
    obtain ⟨s₂, caps₂, m₂, h₂⟩ := ihf n (Nat.lt_succ_self n) r₂ s₁ caps₁ _ res h₁
    exact ⟨s₂, caps₂, .cat m₁ m₂, h₂⟩
  | starG r ih =>
    intro s caps k res h
    simp only [mrun] at h
    rcases orElse_eq_some h with h' | h'
    · obtain ⟨s₁, caps₁, m₁, h₁⟩ := ihf n (Nat.lt_succ_self n) r s caps _ res h'
      obtain ⟨s₂, caps₂, m₂, h₂⟩ := ihf n (Nat.lt_succ_self n) (.starG r) s₁ caps₁ _ res h₁
      exact ⟨s₂, caps₂, .starGCons m₁ m₂, h₂⟩
    · exact ⟨s, caps, .starGNil, h'⟩
  | starL r ih =>
    intro s caps k res h
    simp only [mrun] at h
    rcases orElse_eq_some h with h' | h'
    · exact ⟨s, caps, .starLNil, h'⟩
    · obtain ⟨s₁, caps₁, m₁, h₁⟩ := ihf n (Nat.lt_succ_self n) r s caps _ res h'
      obtain ⟨s₂, caps₂, m₂, h₂⟩ := ihf n (Nat.lt_succ_self n) (.starL r) s₁ caps₁ _ res h₁
      exact ⟨s₂, caps₂, .starLCons m₁ m₂, h₂⟩
  | grp i r ih =>
    intro s caps k res h
    simp only [mrun] at h
    obtain ⟨s₁, caps₁, m₁, h₁⟩ := ihf n (Nat.lt_succ_self n) r s caps _ res h
    exact ⟨s₁, (i, s.take (s.length - s₁.length)) :: caps₁, .grp m₁, h₁⟩

/-- Soundness at the anchored entry point. -/
theorem reFullMatch_sound {r : RE} {s : String} {caps : Caps}
    (h : reFullMatch r s = some caps) : RMatch r s.data [] [] caps := by
  obtain ⟨s', caps', m, hk⟩ := mrun_sound _ r s.data [] _ caps h
  by_cases he : s'.isEmpty
  · rw [if_pos he] at hk
    cases hk
    rwa [List.isEmpty_iff.mp he] at m
  · rw [if_neg he] at hk
    cases hk

/-! ### Inversion lemmas for the pattern fragments -/
theorem rmatch_starG_cls_aux {r₀ : RE} {s s' : List Char} {caps caps' : Caps}
    (h : RMatch r₀ s s' caps caps') :
    ∀ p : Char → Bool, r₀ = .starG (.cls p) →
      caps' = caps ∧ ∃ u, s = u ++ s' ∧ ∀ x ∈ u, p x = true := by
  induction h with
  | eps => exact fun p hr => RE.noConfusion hr
  | cls _ => exact fun p hr => RE.noConfusion hr
  | cat _ _ => exact fun p hr => RE.noConfusion hr
  | starGNil => exact fun p hr => ⟨rfl, [], rfl, by simp⟩
  | starGCons h₁ h₂ ih₁ ih₂ =>
    intro p hr
    have hcls := RE.starG.inj hr
    subst hcls
    cases h₁ with
    | @cls _ ch _ _ hc =>
      obtain ⟨hcaps, u, hu, hall⟩ := ih₂ p rfl
      exact ⟨hcaps, ch :: u, by simp [hu], by
        intro x hx
        rcases List.mem_cons.mp hx with rfl | hx
        · exact hc
        · exact hall x hx⟩
  | starLNil => exact fun p hr => RE.noConfusion hr
  | starLCons _ _ _ _ => exact fun p hr => RE.noConfusion hr
  | grp _ _ => exact fun p hr => RE.noConfusion hr

theorem rmatch_starG_cls {p : Char → Bool} {s s' : List Char} {caps caps' : Caps}
    (h : RMatch (.starG (.cls p)) s s' caps caps') :
    caps' = caps ∧ ∃ u, s = u ++ s' ∧ ∀ x ∈ u, p x = true :=
  rmatch_starG_cls_aux h p rfl

theorem rmatch_plus_cls {p : Char → Bool} {s s' : List Char} {caps caps' : Caps}
    (h : RMatch (plusG (.cls p)) s s' caps caps') :
    caps' = caps ∧ ∃ u, u ≠ [] ∧ s = u ++ s' ∧ ∀ x ∈ u, p x = true := by
  cases h with
  | cat h₁ h₂ =>
    cases h₁ with
    | @cls _ ch _ _ hc =>
      obtain ⟨hcaps, u, hu, hall⟩ := rmatch_starG_cls h₂
      refine ⟨hcaps, ch :: u, by simp, by simp [hu], ?_⟩
      intro x hx
      rcases List.mem_cons.mp hx with rfl | hx
      · exact hc
      · exact hall x hx

theorem rmatch_grp_inv {i : Nat} {r : RE} {s s' : List Char} {caps caps'' : Caps}
    (h : RMatch (.grp i r) s s' caps caps'') :
    ∃ caps', RMatch r s s' caps caps' ∧
      caps'' = (i, s.take (s.length - s'.length)) :: caps' := by
  cases h with
  | grp h => exact ⟨_, h, rfl⟩

theorem take_len_sub {u x : List Char} : (u ++ x).take ((u ++ x).length - x.length) = u := by
  have : (u ++ x).length - x.length = u.length := by simp
  rw [this]
  exact List.take_left u x

/-! ### List helpers shared by several proofs -/
theorem takeWhile_append_all {p : Char → Bool} {u x : List Char}
    (h : ∀ c ∈ u, p c = true) : (u ++ x).takeWhile p = u ++ x.takeWhile p := by
  induction u with
  | nil => simp
  | cons c t ih => simp_all [List.takeWhile_cons]

theorem dropWhile_append_all {p : Char → Bool} {u x : List Char}
    (h : ∀ c ∈ u, p c = true) : (u ++ x).dropWhile p = x.dropWhile p := by
  induction u with
  | nil => simp
  | cons c t ih => simp_all [List.dropWhile_cons]

theorem takeWhile_cons_false {p : Char → Bool} {c : Char} {x : List Char}
    (h : p c = false) : (c :: x).takeWhile p = [] := by
  simp [List.takeWhile_cons, h]

theorem dropWhile_cons_false {p : Char → Bool} {c : Char} {x : List Char}
    (h : p c = false) : (c :: x).dropWhile p = c :: x := by
  simp [List.dropWhile_cons, h]

namespace merge_riscv_extensions

theorem lookup_cons {β : Type} {k k' : String} {v : β} {t : List (String × β)} :
    List.lookup k' ((k, v) :: t) = if k' = k then some v else List.lookup k' t := by
  by_cases h : k' = k
  · subst h; simp [List.lookup]
  · have hb : (k' == k) = false := by simpa using h
    simp [List.lookup, hb, h]

theorem lookup_append_single {l : List (String × MergeEntry)} {k k' : String}
    {e : MergeEntry} :
    (l ++ [(k, e)]).lookup k' =
      match l.lookup k' with
      | some v => some v
      | none => if k' = k then some e else none := by
  induction l with
  | nil => simp [lookup_cons]
  | cons p t ih =>
    obtain ⟨kp, vp⟩ := p
    by_cases h : k' = kp
    · simp [lookup_cons, h]
    · simpa [lookup_cons, h] using ih

theorem lookup_upd_entry {f : MergeEntry → MergeEntry} {k k' : String}
    {l : List (String × MergeEntry)} :
    (upd_entry k f l).lookup k' =
      if k' = k then (l.lookup k).map f else l.lookup k' := by
  induction l with
  | nil => by_cases h : k' = k <;> simp [upd_entry, List.lookup, h]
  | cons p t ih =>
    obtain ⟨kp, vp⟩ := p
    by_cases hpk : kp = k
    · subst hpk
      by_cases h : k' = kp <;> simp [upd_entry, lookup_cons, h]
    · have hkp : ¬k = kp := fun he => hpk he.symm
      by_cases h : k' = kp
      · subst h
        simp [upd_entry, hpk, lookup_cons, hkp]
      · simp [upd_entry, hpk, lookup_cons, h, hkp, ih]

theorem lookup_dict_insert {k k' : String} {v : ExtData}
    {l : List (String × ExtData)} :
    (dict_insert k v l).lookup k' = if k' = k then some v else l.lookup k' := by
  induction l with
  | nil => by_cases h : k' = k <;> simp [dict_insert, lookup_cons, h]
  | cons p t ih =>
    obtain ⟨kp, vp⟩ := p
    by_cases hpk : kp = k
    · subst hpk
      by_cases h : k' = kp <;> simp [dict_insert, lookup_cons, h]
    · have hkp : ¬k = kp := fun he => hpk he.symm
      by_cases h : k' = kp
      · subst h
        simp [dict_insert, hpk, lookup_cons, hkp]
      · simp [dict_insert, hpk, lookup_cons, h, hkp, ih]

theorem lookup_add_one {c : String} {acc : List (String × MergeEntry)}
    {k₀ : String} {e₀ : ExtData} {k : String} :
    (add_one c acc (k₀, e₀)).lookup k =
      if k = k₀ then some (step_entry c (acc.lookup k₀) e₀) else acc.lookup k := by
  cases hl : acc.lookup k₀ with
  | none =>
    simp only [add_one, hl]
    rw [lookup_upd_entry]
    by_cases h : k = k₀
    · subst h
      rw [if_pos rfl, lookup_append_single, hl]
      simp [step_entry]
    · rw [if_neg h, if_neg h, lookup_append_single]
      cases hk : acc.lookup k with
      | none => simp [fun he => h he]
      | some v => simp
  | some e =>
    simp only [add_one, hl]
    by_cases hc : e.description = "" ∧ e₀.description ≠ ""
    · rw [if_pos hc, lookup_upd_entry]
      by_cases h : k = k₀
      · subst h
        rw [if_pos rfl, if_pos rfl, lookup_upd_entry, if_pos rfl, hl]
        simp [step_entry, hc]
      · rw [if_neg h, if_neg h, lookup_upd_entry, if_neg h]
    · rw [if_neg hc, lookup_upd_entry]
      by_cases h : k = k₀
      · subst h
        rw [if_pos rfl, if_pos rfl, hl]
        simp [step_entry, hc]
      · rw [if_neg h, if_neg h]

theorem set_insert_mem {c s : String} {l : List String} :
    s ∈ set_insert c l ↔ s ∈ l ∨ s = c := by
  unfold set_insert
  by_cases h : l.contains c
  · rw [if_pos h]
    have hc : c ∈ l := by simpa using h
    constructor
    · exact Or.inl
    · rintro (hs | rfl)
      · exact hs
      · exact hc
  · rw [if_neg h]
    simp [List.mem_append]

theorem step_entry_sources {c : String} {old : Option MergeEntry} {ext : ExtData}
    {s : String} :
    s ∈ (step_entry c old ext).sources ↔
      (∃ e, old = some e ∧ s ∈ e.sources) ∨ s = c := by
  cases old with
  | none => simp [step_entry, set_insert_mem]
  | some e =>
    by_cases hc : e.description = "" ∧ ext.description ≠ "" <;>
      simp [step_entry, hc, set_insert_mem]

theorem step_entry_description {c : String} {old : Option MergeEntry} {ext : ExtData} :
    (step_entry c old ext).description =
      combineD (old.map MergeEntry.description) ext.description := by
  cases old with
  | none => simp [step_entry, combineD]
  | some e =>
    by_cases hc : e.description = "" ∧ ext.description ≠ "" <;>
      simp [step_entry, combineD, hc]

theorem flagP_add_one {c : String} {acc : List (String × MergeEntry)}
    {k₀ : String} {e₀ : ExtData} {k s : String} :
    flagP (add_one c acc (k₀, e₀)) k s ↔ flagP acc k s ∨ (k = k₀ ∧ s = c) := by
  by_cases h : k = k₀
  · subst h
    simp [flagP, lookup_add_one, step_entry_sources]
  · simp [flagP, lookup_add_one, h]

theorem has_key_add_one {c : String} {acc : List (String × MergeEntry)}
    {k₀ : String} {e₀ : ExtData} {k : String} :
    has_key (add_one c acc (k₀, e₀)) k ↔ has_key acc k ∨ k = k₀ := by
  by_cases h : k = k₀ <;> simp [has_key, lookup_add_one, h]

theorem desc_add_one {c : String} {acc : List (String × MergeEntry)}
    {k₀ : String} {e₀ : ExtData} {k : String} :
    desc_of (add_one c acc (k₀, e₀)) k =
      if k = k₀ then some (combineD (desc_of acc k₀) e₀.description)
      else desc_of acc k := by
  by_cases h : k = k₀ <;>
    simp [desc_of, lookup_add_one, h, step_entry_description]

theorem lookup_eq_none_of_not_mem {β : Type} {l : List (String × β)} {k : String}
    (h : k ∉ l.map Prod.fst) : l.lookup k = none := by
  induction l with
  | nil => rfl
  | cons p t ih =>
    simp only [List.map_cons, List.mem_cons] at h
    push_neg at h
    rw [show p = (p.1, p.2) from rfl, lookup_cons, if_neg h.1]
    exact ih h.2

theorem flagP_add_file {c : String} : ∀ (exts : List (String × ExtData))
    {acc : List (String × MergeEntry)} {k s : String},
    flagP (add_file acc c exts) k s ↔
      flagP acc k s ∨ ((∃ e, (k, e) ∈ exts) ∧ s = c) := by
  intro exts
  induction exts with
  | nil => intro acc k s; simp [add_file]
  | cons ke rest ih =>
    intro acc k s
    obtain ⟨k₀, e₀⟩ := ke
    rw [show add_file acc c ((k₀, e₀) :: rest) = add_file (add_one c acc (k₀, e₀)) c rest
      from rfl, ih, flagP_add_one]
    constructor
    · rintro ((hacc | ⟨rfl, rfl⟩) | ⟨⟨e, he⟩, rfl⟩)
      · exact Or.inl hacc
      · exact Or.inr ⟨⟨e₀, List.mem_cons_self _ _⟩, rfl⟩
      · exact Or.inr ⟨⟨e, List.mem_cons_of_mem _ he⟩, rfl⟩
    · rintro (hacc | ⟨⟨e, he⟩, rfl⟩)
      · exact Or.inl (Or.inl hacc)
      · rcases List.mem_cons.mp he with heq | hmem
        · injection heq with h₁ h₂
          exact Or.inl (Or.inr ⟨h₁, rfl⟩)
        · exact Or.inr ⟨⟨e, hmem⟩, rfl⟩

theorem has_key_add_file {c : String} : ∀ (exts : List (String × ExtData))
    {acc : List (String × MergeEntry)} {k : String},
    has_key (add_file acc c exts) k ↔ has_key acc k ∨ ∃ e, (k, e) ∈ exts := by
  intro exts
  induction exts with
  | nil => intro acc k; simp [add_file]
  | cons ke rest ih =>
    intro acc k
    obtain ⟨k₀, e₀⟩ := ke
    rw [show add_file acc c ((k₀, e₀) :: rest) = add_file (add_one c acc (k₀, e₀)) c rest
      from rfl, ih, has_key_add_one]
    constructor
    · rintro ((hacc | rfl) | ⟨e, he⟩)
      · exact Or.inl hacc
      · exact Or.inr ⟨e₀, List.mem_cons_self _ _⟩
      · exact Or.inr ⟨e, List.mem_cons_of_mem _ he⟩
    · rintro (hacc | ⟨e, he⟩)
      · exact Or.inl (Or.inl hacc)
      · rcases List.mem_cons.mp he with heq | hmem
        · injection heq with h₁ h₂
          exact Or.inl (Or.inr h₁)
        · exact Or.inr ⟨e, hmem⟩

theorem desc_add_file {c : String} : ∀ (exts : List (String × ExtData)),
    (exts.map Prod.fst).Nodup → ∀ (acc : List (String × MergeEntry)) (k : String),
    desc_of (add_file acc c exts) k =
      match exts.lookup k with
      | some e => some (combineD (desc_of acc k) e.description)
      | none => desc_of acc k := by
  intro exts
  induction exts with
  | nil => intro _ acc k; simp [add_file, List.lookup]
  | cons ke rest ih =>
    intro hnd acc k
    obtain ⟨k₀, e₀⟩ := ke
    rw [List.map_cons] at hnd
    obtain ⟨hk₀, hnd'⟩ := List.nodup_cons.mp hnd
    rw [show add_file acc c ((k₀, e₀) :: rest) = add_file (add_one c acc (k₀, e₀)) c rest
      from rfl, ih hnd', lookup_cons]
    by_cases h : k = k₀
    · subst h
      rw [if_pos rfl,
        lookup_eq_none_of_not_mem (by simpa using hk₀),
        desc_add_one, if_pos rfl]
    · rw [if_neg h]
      cases hr : rest.lookup k with
      | none => simp [desc_add_one, h]
      | some e => simp [desc_add_one, h]

theorem flagP_build_aux : ∀ (files : List (String × List (String × ExtData)))
    {acc : List (String × MergeEntry)} {k s : String},
    flagP (files.foldl (fun a ce => add_file a ce.1 ce.2) acc) k s ↔
      flagP acc k s ∨ ∃ x, (s, x) ∈ files ∧ ∃ e, (k, e) ∈ x := by
  intro files
  induction files with
  | nil => intro acc k s; simp
  | cons cx rest ih =>
    intro acc k s
    obtain ⟨c, x⟩ := cx
    rw [List.foldl_cons, ih, flagP_add_file]
    constructor
    · rintro ((hacc | ⟨⟨e, he⟩, rfl⟩) | ⟨x', hx', e, he⟩)
      · exact Or.inl hacc
      · exact Or.inr ⟨x, List.mem_cons_self _ _, e, he⟩
      · exact Or.inr ⟨x', List.mem_cons_of_mem _ hx', e, he⟩
    · rintro (hacc | ⟨x', hx', e, he⟩)
      · exact Or.inl (Or.inl hacc)
      · rcases List.mem_cons.mp hx' with heq | hmem
        · injection heq with h₁ h₂
          subst h₁; subst h₂
          exact Or.inl (Or.inr ⟨⟨e, he⟩, rfl⟩)
        · exact Or.inr ⟨x', hmem, e, he⟩

theorem has_key_build_aux : ∀ (files : List (String × List (String × ExtData)))
    {acc : List (String × MergeEntry)} {k : String},
    has_key (files.foldl (fun a ce => add_file a ce.1 ce.2) acc) k ↔
      has_key acc k ∨ ∃ c x, (c, x) ∈ files ∧ ∃ e, (k, e) ∈ x := by
  intro files
  induction files with
  | nil => intro acc k; simp
  | cons cx rest ih =>
    intro acc k
    obtain ⟨c, x⟩ := cx
    rw [List.foldl_cons, ih, has_key_add_file]
    constructor
    · rintro ((hacc | ⟨e, he⟩) | ⟨c', x', hx', e, he⟩)
      · exact Or.inl hacc
      · exact Or.inr ⟨c, x, List.mem_cons_self _ _, e, he⟩
      · exact Or.inr ⟨c', x', List.mem_cons_of_mem _ hx', e, he⟩
    · rintro (hacc | ⟨c', x', hx', e, he⟩)
      · exact Or.inl (Or.inl hacc)
      · rcases List.mem_cons.mp hx' with heq | hmem
        · injection heq with h₁ h₂
          subst h₂
          exact Or.inl (Or.inr ⟨e, he⟩)
        · exact Or.inr ⟨c', x', hmem, e, he⟩

theorem flagP_build_all {files : List (String × List (String × ExtData))}
    {k s : String} :
    flagP (build_all files) k s ↔ ∃ x, (s, x) ∈ files ∧ ∃ e, (k, e) ∈ x := by
  rw [build_all, flagP_build_aux]
  simp [flagP, List.lookup]

theorem has_key_build_all {files : List (String × List (String × ExtData))}
    {k : String} :
    has_key (build_all files) k ↔ ∃ c x, (c, x) ∈ files ∧ ∃ e, (k, e) ∈ x := by
  rw [build_all, has_key_build_aux]
  simp [has_key, List.lookup]

open Classical in
theorem flag_cell_eq_ite {m : List (String × MergeEntry)} {k s : String} :
    flag_cell m k s = if flagP m k s then "Y" else "N" := by
  unfold flag_cell
  cases hm : m.lookup k with
  | none =>
    have hf : ¬flagP m k s := by
      rintro ⟨e, he, _⟩
      rw [hm] at he
      cases he
    simp [hf]
  | some e =>
    by_cases hc : s ∈ e.sources
    · have hf : flagP m k s := ⟨e, hm, hc⟩
      simp [hf, hc]
    · have hf : ¬flagP m k s := by
        rintro ⟨e', he', hs⟩
        rw [hm] at he'
        cases he'
        exact hc hs
      simp [hf, hc]

/-! ### Facts about `read_csv_file` -/
theorem mem_keys_dict_insert {k k' : String} {v : ExtData}
    {l : List (String × ExtData)} :
    k' ∈ (dict_insert k v l).map Prod.fst ↔ k' ∈ l.map Prod.fst ∨ k' = k := by
  induction l with
  | nil => simp [dict_insert]
  | cons p t ih =>
    obtain ⟨kp, vp⟩ := p
    by_cases hk : kp = k
    · subst hk
      simp [dict_insert]
      tauto
    · rw [show dict_insert k v ((kp, vp) :: t) = (kp, vp) :: dict_insert k v t by
        simp [dict_insert, hk]]
      simp only [List.map_cons, List.mem_cons, ih]
      tauto

theorem dict_insert_keys_nodup {k : String} {v : ExtData}
    {l : List (String × ExtData)} (h : (l.map Prod.fst).Nodup) :
    ((dict_insert k v l).map Prod.fst).Nodup := by
  induction l with
  | nil => simp [dict_insert]
  | cons p t ih =>
    obtain ⟨kp, vp⟩ := p
    rw [List.map_cons] at h
    obtain ⟨hkp, ht⟩ := List.nodup_cons.mp h
    by_cases hk : kp = k
    · subst hk
      simpa [dict_insert] using List.nodup_cons.mpr ⟨hkp, ht⟩
    · rw [show dict_insert k v ((kp, vp) :: t) = (kp, vp) :: dict_insert k v t by
        simp [dict_insert, hk]]
      rw [List.map_cons]
      refine List.nodup_cons.mpr ⟨?_, ih ht⟩
      intro hmem
      rcases mem_keys_dict_insert.mp hmem with h₁ | h₁
      · exact hkp h₁
      · exact hk h₁

theorem read_rows_nodup (hd : Bool) (rows : Csv) :
    ((read_rows hd rows).map Prod.fst).Nodup := by
  rw [read_rows]
  have : ∀ (acc : List (String × ExtData)), (acc.map Prod.fst).Nodup →
      ((rows.foldl (read_row_step hd) acc).map Prod.fst).Nodup := by
    induction rows with
    | nil => intro acc h; simpa using h
    | cons row rest ih =>
      intro acc h
      rw [List.foldl_cons]
      apply ih
      unfold read_row_step
      by_cases hl : row.length < 2
      · rwa [if_pos hl]
      · rw [if_neg hl]
        exact dict_insert_keys_nodup h
  exact this [] (by simp)

theorem read_csv_file_nodup {csv : Csv} {exts : List (String × ExtData)}
    (h : read_csv_file csv = some exts) : (exts.map Prod.fst).Nodup := by
  cases csv with
  | nil => cases h
  | cons headers rows =>
    simp only [read_csv_file, Option.some.injEq] at h
    subst h
    exact read_rows_nodup _ rows

theorem read_all_elim : ∀ {inputs : List (String × Csv)}
    {files : List (String × List (String × ExtData))},
    read_all inputs = some files →
    files.map Prod.fst = inputs.map Prod.fst ∧
      ∀ cx ∈ files, (cx.2.map Prod.fst).Nodup := by
  intro inputs
  induction inputs with
  | nil =>
    intro files h
    cases h
    simp
  | cons p rest ih =>
    intro files h
    obtain ⟨c, csv⟩ := p
    simp only [read_all, Option.bind_eq_bind, Option.bind_eq_some] at h
    obtain ⟨e, he, r, hr, hf⟩ := h
    cases hf
    obtain ⟨h₁, h₂⟩ := ih hr
    refine ⟨by simp [h₁], ?_⟩
    intro cx hcx
    rcases List.mem_cons.mp hcx with rfl | hmem
    · exact read_csv_file_nodup he
    · exact h₂ cx hmem

/-! ### The first-non-empty description chain -/
theorem chain_some_ne {d₀ : String} (h : d₀ ≠ "") : ∀ (l : List String),
    l.foldl (fun o d => some (combineD o d)) (some d₀) = some d₀ := by
  intro l
  induction l with
  | nil => rfl
  | cons d rest ih =>
    rw [List.foldl_cons, show combineD (some d₀) d = d₀ by simp [combineD, h], ih]

theorem chain_some_empty : ∀ (l : List String),
    l.foldl (fun o d => some (combineD o d)) (some "") =
      some ((l.filter fun d => d ≠ "").headD "") := by
  intro l
  induction l with
  | nil => rfl
  | cons d rest ih =>
    rw [List.foldl_cons]
    by_cases hd : d = ""
    · subst hd
      rw [show combineD (some "") "" = "" by simp [combineD], ih]
      simp
    · rw [show combineD (some "") d = d by simp [combineD, hd], chain_some_ne hd]
      simp [List.filter_cons, hd]

theorem chain_none : ∀ (l : List String), l ≠ [] →
    l.foldl (fun o d => some (combineD o d)) none =
      some ((l.filter fun d => d ≠ "").headD "") := by
  intro l hl
  cases l with
  | nil => cases hl rfl
  | cons d rest =>
    rw [List.foldl_cons, show combineD none d = d from rfl]
    by_cases hd : d = ""
    · subst hd
      rw [chain_some_empty]
      simp
    · rw [chain_some_ne hd]
      simp [List.filter_cons, hd]

theorem desc_build_aux : ∀ (files : List (String × List (String × ExtData))),
    (∀ cx ∈ files, (cx.2.map Prod.fst).Nodup) →
    ∀ (acc : List (String × MergeEntry)) (k : String),
    desc_of (files.foldl (fun a ce => add_file a ce.1 ce.2) acc) k =
      (files.filterMap fun cx => (cx.2.lookup k).map ExtData.description).foldl
        (fun o d => some (combineD o d)) (desc_of acc k) := by
  intro files
  induction files with
  | nil => intro _ acc k; rfl
  | cons cx rest ih =>
    intro hnd acc k
    obtain ⟨c, x⟩ := cx
    rw [List.foldl_cons,
      ih (fun cy hcy => hnd cy (List.mem_cons_of_mem _ hcy)) (add_file acc c x) k]
    rw [desc_add_file x (hnd (c, x) (List.mem_cons_self _ _)) acc k]
    cases hx : x.lookup k with
    | none => simp [List.filterMap_cons, hx]
    | some e => simp [List.filterMap_cons, hx]

theorem desc_build_all {files : List (String × List (String × ExtData))}
    (hnd : ∀ cx ∈ files, (cx.2.map Prod.fst).Nodup) {k : String} {e : MergeEntry}
    (hk : (build_all files).lookup k = some e) :
    e.description =
      ((files.filterMap fun cx => (cx.2.lookup k).map ExtData.description).filter
        fun d => d ≠ "").headD "" := by
  have hd := desc_build_aux files hnd [] k
  rw [build_all] at hk
  simp only [desc_of, hk, List.lookup, Option.map_some', Option.map_none'] at hd
  have hne : (files.filterMap fun cx => (cx.2.lookup k).map ExtData.description) ≠ [] := by
    intro hemp
    rw [hemp] at hd
    cases hd
  rw [chain_none _ hne] at hd
  exact Option.some.inj hd

theorem out_row_getD {all : List (String × MergeEntry)} {flag : Bool}
    {srcs : List String} {k : String} :
    ((out_row all flag srcs k).getD 0 "", (out_row all flag srcs k).getD 1 "") =
      nv all k := by
  unfold out_row nv
  cases all.lookup k with
  | none => rfl
  | some e => cases flag <;> rfl

theorem merge_output_tail_sorted {srcs : List String}
    {all : List (String × MergeEntry)} {flag : Bool} :
    (merge_output srcs all flag).tail.Pairwise row_le := by
  haveI ht : IsTrans String (fun k₁ k₂ => key_le all k₁ k₂ = true) :=
    ⟨fun a b c h₁ h₂ => pairLe_trans _ _ _ h₁ h₂⟩
  haveI hto : IsTotal String (fun k₁ k₂ => key_le all k₁ k₂ = true) :=
    ⟨fun a b => by
      have h := pairLe_total (nv all a) (nv all b)
      rcases Bool.or_eq_true_iff.mp h with h' | h'
      · exact Or.inl h'
      · exact Or.inr h'⟩
  have hs := List.sorted_insertionSort (fun k₁ k₂ => key_le all k₁ k₂ = true)
    (all.map Prod.fst)
  unfold merge_output
  simp only [List.tail_cons]
  refine List.Pairwise.map _ ?_ hs
  intro a b hab
  unfold row_le
  rw [out_row_getD, out_row_getD]
  exact hab

/-! ### The single-source merge -/
theorem upd_entry_append_notmem {k : String} {f : MergeEntry → MergeEntry}
    {acc : List (String × MergeEntry)} {e : MergeEntry}
    (h : acc.lookup k = none) :
    upd_entry k f (acc ++ [(k, e)]) = acc ++ [(k, f e)] := by
  induction acc with
  | nil => simp [upd_entry]
  | cons p t ih =>
    obtain ⟨kp, vp⟩ := p
    rw [lookup_cons] at h
    by_cases hk : k = kp
    · rw [if_pos hk] at h
      cases h
    · rw [if_neg hk] at h
      have hpk : ¬kp = k := fun hh => hk hh.symm
      rw [List.cons_append,
        show upd_entry k f ((kp, vp) :: (t ++ [(k, e)])) =
          (kp, vp) :: upd_entry k f (t ++ [(k, e)]) by simp [upd_entry, hpk],
        ih h, List.cons_append]

theorem add_file_fresh {c : String} : ∀ (exts : List (String × ExtData))
    (acc : List (String × MergeEntry)),
    (exts.map Prod.fst).Nodup →
    (∀ k, k ∈ exts.map Prod.fst → acc.lookup k = none) →
    add_file acc c exts = acc ++ exts.map (lift_entry c) := by
  intro exts
  induction exts with
  | nil => intro acc _ _; simp [add_file]
  | cons ke rest ih =>
    intro acc hnd hdisj
    obtain ⟨k₀, e₀⟩ := ke
    rw [List.map_cons] at hnd
    obtain ⟨hk₀, hnd'⟩ := List.nodup_cons.mp hnd
    have hl : acc.lookup k₀ = none := hdisj k₀ (by simp)
    have hstep : add_one c acc (k₀, e₀) = acc ++ [lift_entry c (k₀, e₀)] := by
      simp only [add_one, hl]
      rw [upd_entry_append_notmem hl]
      rfl
    rw [show add_file acc c ((k₀, e₀) :: rest) = add_file (add_one c acc (k₀, e₀)) c rest
      from rfl, hstep, ih (acc ++ [lift_entry c (k₀, e₀)]) hnd' ?_]
    · rw [List.map_cons, List.append_assoc]
      rfl
    · intro k hk
      rw [lookup_append_single, hdisj k (List.mem_cons_of_mem _ hk)]
      rw [if_neg]
      intro he
      exact hk₀ (he ▸ hk)

theorem lookup_of_mem_nodup : ∀ {l : List (String × MergeEntry)},
    (l.map Prod.fst).Nodup → ∀ ke ∈ l, l.lookup ke.1 = some ke.2 := by
  intro l
  induction l with
  | nil => intro _ ke hke; cases hke
  | cons p t ih =>
    intro hnd ke hke
    obtain ⟨kp, vp⟩ := p
    rw [List.map_cons] at hnd
    obtain ⟨hkp, hnd'⟩ := List.nodup_cons.mp hnd
    rcases List.mem_cons.mp hke with rfl | hmem
    · rw [lookup_cons, if_pos rfl]
    · rw [lookup_cons]
      have hmk : ke.1 ∈ t.map Prod.fst := List.mem_map_of_mem Prod.fst hmem
      rw [if_neg]
      · exact ih hnd' ke hmem
      · intro he
        rw [he] at hmk
        exact hkp hmk

theorem merge_single_file {c : String} {csv : Csv} {exts : List (String × ExtData)}
    (h : read_csv_file csv = some exts) (flag : Bool) :
    ∃ rows, merge_csv_files [(c, csv)] flag =
        some ((["Name", "Version"] ++ (if flag then ["Description"] else []) ++ [c]) :: rows) ∧
      rows.Perm (exts.map fun ke =>
        [ke.2.name, ke.2.version] ++ (if flag then [ke.2.description] else []) ++ ["Y"]) ∧
      rows.Pairwise row_le := by
  have hra : read_all [(c, csv)] = some [(c, exts)] := by
    simp [read_all, h]
  set all := build_all [(c, exts)] with hall_def
  have hall : all = exts.map (lift_entry c) := by
    rw [hall_def, build_all]
    simp only [List.foldl_cons, List.foldl_nil]
    rw [add_file_fresh exts [] (read_csv_file_nodup h) (fun k _ => rfl)]
    simp
  have hkeys : all.map Prod.fst = exts.map Prod.fst := by
    rw [hall, List.map_map]
    rfl
  have hnd : (all.map Prod.fst).Nodup := by
    rw [hkeys]
    exact read_csv_file_nodup h
  set rows := ((all.map Prod.fst).insertionSort
    (fun k₁ k₂ => key_le all k₁ k₂ = true)).map (out_row all flag [c]) with hrows
  refine ⟨rows, ?_, ?_, ?_⟩
  · simp only [merge_csv_files, hra, Option.map_some']
    rfl
  · have h₁ := (List.perm_insertionSort
      (fun k₁ k₂ => key_le all k₁ k₂ = true) (all.map Prod.fst)).map
      (out_row all flag [c])
    refine h₁.trans ?_
    rw [hkeys, List.map_map]
    rw [List.map_congr_left (g := fun ke =>
      [ke.2.name, ke.2.version] ++ (if flag then [ke.2.description] else []) ++ ["Y"]) ?_]
    intro ke hke
    have hl : all.lookup ke.1 = some ⟨ke.2.name, ke.2.version, ke.2.description, [c]⟩ := by
      have hm : lift_entry c ke ∈ all := by
        rw [hall]
        exact List.mem_map_of_mem _ hke
      exact lookup_of_mem_nodup hnd (lift_entry c ke) hm
    simp [Function.comp_apply, out_row, hl]
  · have := @merge_output_tail_sorted [c] all flag
    simpa [merge_output] using this

end merge_riscv_extensions

/-! ### Decomposition of a successful strict-pattern match -/
theorem dropWhile_ws_head_nonws {a x : List Char} (hane : a ≠ [])
    (ha : ∀ y ∈ a, isWs y = false) : (a ++ x).dropWhile isWs = a ++ x := by
  cases a with
  | nil => cases hane rfl
  | cons a₀ t => exact dropWhile_cons_false (ha a₀ (List.mem_cons_self _ _))

theorem takeWhile_nonws_head_ws {u x : List Char} (hne : u ≠ [])
    (hu : ∀ y ∈ u, isWs y = true) :
    ((u ++ x).takeWhile fun c => !isWs c) = [] := by
  cases u with
  | nil => cases hne rfl
  | cons u₀ t =>
    exact takeWhile_cons_false (by simp [hu u₀ (List.mem_cons_self _ _)])

theorem dropWhile_nonws_head_ws {u x : List Char} (hne : u ≠ [])
    (hu : ∀ y ∈ u, isWs y = true) :
    ((u ++ x).dropWhile fun c => !isWs c) = u ++ x := by
  cases u with
  | nil => cases hne rfl
  | cons u₀ t =>
    exact dropWhile_cons_false (by simp [hu u₀ (List.mem_cons_self _ _)])

theorem clang_match_decomp {line : String} {caps : Caps}
    (h : reFullMatch gen_clang_txt2csv.pattern line = some caps) :
    ∃ w0 a w1 b w2 c : List Char,
      line.data = w0 ++ (a ++ (w1 ++ (b ++ (w2 ++ c)))) ∧
      (∀ x ∈ w0, isWs x = true) ∧
      a ≠ [] ∧ (∀ x ∈ a, isWs x = false) ∧
      w1 ≠ [] ∧ (∀ x ∈ w1, isWs x = true) ∧
      b ≠ [] ∧ (∀ x ∈ b, isWs x = false) ∧
      w2 ≠ [] ∧ (∀ x ∈ w2, isWs x = true) ∧
      c ≠ [] ∧
      capGroup 1 caps = ⟨a⟩ ∧ capGroup 2 caps = ⟨b⟩ ∧ capGroup 3 caps = ⟨c⟩ := by
  have hm := reFullMatch_sound h
  rw [show gen_clang_txt2csv.pattern =
    .cat wsStar (.cat (.grp 1 nonwsPlus) (.cat wsPlus (.cat (.grp 2 nonwsPlus)
      (.cat wsPlus (.grp 3 (plusG dotC)))))) from rfl] at hm
  cases hm with
  | cat h0 hr1 =>
  obtain ⟨rfl, w0, hw0eq, hw0⟩ := rmatch_starG_cls h0
  cases hr1 with
  | cat hg1 hr2 =>
  obtain ⟨caps1, hin1, rfl⟩ := rmatch_grp_inv hg1
  obtain ⟨rfl, a, hane, haeq, hanws⟩ := rmatch_plus_cls hin1
  cases hr2 with
  | cat hws1 hr3 =>
  obtain ⟨rfl, w1, hw1ne, hw1eq, hw1⟩ := rmatch_plus_cls hws1
  cases hr3 with
  | cat hg2 hr4 =>
  obtain ⟨caps2, hin2, rfl⟩ := rmatch_grp_inv hg2
  obtain ⟨rfl, b, hbne, hbeq, hbnws⟩ := rmatch_plus_cls hin2
  cases hr4 with
  | cat hws2 hg3 =>
  obtain ⟨rfl, w2, hw2ne, hw2eq, hw2⟩ := rmatch_plus_cls hws2
  obtain ⟨caps3, hin3, rfl⟩ := rmatch_grp_inv hg3
  obtain ⟨rfl, c, hcne, hceq, hcd⟩ := rmatch_plus_cls hin3
  rw [List.append_nil] at hceq
  have hceq' := hceq.symm
  subst hceq'
  subst hbeq
  subst hw2eq
  subst hw1eq
  subst haeq
  refine ⟨w0, a, w1, b, w2, c, hw0eq, hw0, hane,
    fun x hx => by simpa using hanws x hx, hw1ne, hw1, hbne,
    fun x hx => by simpa using hbnws x hx, hw2ne, hw2, hcne, ?_, ?_, ?_⟩ <;>
    simp [capGroup, List.lookup, take_len_sub, List.take_length]

theorem strict_fields_of_decomp {w0 a w1 b w2 c : List Char} {line : String}
    (heq : line.data = w0 ++ (a ++ (w1 ++ (b ++ (w2 ++ c)))))
    (hw0 : ∀ x ∈ w0, isWs x = true)
    (hane : a ≠ []) (ha : ∀ x ∈ a, isWs x = false)
    (hw1ne : w1 ≠ []) (hw1 : ∀ x ∈ w1, isWs x = true)
    (hbne : b ≠ []) (hb : ∀ x ∈ b, isWs x = false)
    (hw2ne : w2 ≠ []) (hw2 : ∀ x ∈ w2, isWs x = true) :
    strict_fields line = (⟨a⟩, ⟨b⟩, ⟨trimList c⟩) := by
  have hnwa : ∀ x ∈ a, (!isWs x) = true := fun x hx => by simp [ha x hx]
  have hnwb : ∀ x ∈ b, (!isWs x) = true := fun x hx => by simp [hb x hx]
  unfold strict_fields
  rw [heq]
  dsimp only
  rw [dropWhile_append_all hw0,
    dropWhile_ws_head_nonws hane ha]
  have h1 : ((a ++ (w1 ++ (b ++ (w2 ++ c)))).takeWhile fun x => !isWs x) = a := by
    rw [takeWhile_append_all hnwa, takeWhile_nonws_head_ws hw1ne hw1, List.append_nil]
  have h2 : ((a ++ (w1 ++ (b ++ (w2 ++ c)))).dropWhile fun x => !isWs x) =
      w1 ++ (b ++ (w2 ++ c)) := by
    rw [dropWhile_append_all hnwa, dropWhile_nonws_head_ws hw1ne hw1]
  rw [h1, h2, dropWhile_append_all hw1, dropWhile_ws_head_nonws hbne hb]
  have h3 : ((b ++ (w2 ++ c)).takeWhile fun x => !isWs x) = b := by
    rw [takeWhile_append_all hnwb, takeWhile_nonws_head_ws hw2ne hw2, List.append_nil]
  have h4 : ((b ++ (w2 ++ c)).dropWhile fun x => !isWs x) = w2 ++ c := by
    rw [dropWhile_append_all hnwb, dropWhile_nonws_head_ws hw2ne hw2]
  rw [h3, h4]
  have h5 : trimList (w2 ++ c) = trimList c := by
    unfold trimList
    rw [dropWhile_append_all hw2]
  rw [h5]

/-! ### Helpers for the lenient pipeline -/
theorem process_line_of_classify {raw : String} {nvd : String × String × String}
    (h : gen_txt2csv.classify (pyStrip raw) = some nvd) :
    gen_txt2csv.process_line raw = gen_txt2csv.emit_rows nvd.1 nvd.2.1 nvd.2.2 := by
  unfold gen_txt2csv.process_line
  dsimp only
  rw [h]

theorem filterMap_if {α β : Type} (p : α → Bool) (f : α → β) (l : List α) :
    (l.filterMap fun x => if p x then none else some (f x)) =
      (l.filter fun x => !p x).map f := by
  induction l with
  | nil => rfl
  | cons x t ih =>
    by_cases h : p x <;> simp [List.filterMap_cons, List.filter_cons, h, ih]

theorem data_isEmpty_eq {s : String} : (!s.data.isEmpty) = decide (s ≠ "") := by
  obtain ⟨data⟩ := s
  cases data with
  | nil => rfl
  | cons c t =>
    have : (⟨c :: t⟩ : String) ≠ "" := by
      intro he
      have := congrArg String.data he
      cases this
    simp [this]

/-! ### The claims -/
/-- C1: when the (post-heuristics) version field contains comma-separated
sub-tokens, the classifier expands the input line into one record per
non-empty stripped sub-version, all sharing the same stripped name and
description.  (The concrete `"zvl32b 1.0, 1.1"` example is its witness.) -/
theorem claim_C1 (raw n v d : String)
    (h : gen_txt2csv.classify (pyStrip raw) = some (n, v, d))
    (hc : v.data.contains ',' = true) :
    gen_txt2csv.process_line raw =
      (((pySplitChar ',' v).map pyStrip).filter fun s => s ≠ "").map
        fun s => [pyStrip n, s, pyStrip d] := by
  rw [process_line_of_classify h]
  unfold gen_txt2csv.emit_rows
  rw [if_pos hc, filterMap_if]
  congr 1
  apply List.filter_congr
  intro s _
  exact data_isEmpty_eq

/-- Witness for C1 at the line of the spec example. -/
theorem claim_C1_witness :
    gen_txt2csv.classify (pyStrip "zvl32b 1.0, 1.1") = some ("zvl32b", "1.0,1.1", "") ∧
    gen_txt2csv.process_line "zvl32b 1.0, 1.1" =
      [["zvl32b", "1.0", ""], ["zvl32b", "1.1", ""]] :=
  ⟨by decide, by
    rw [claim_C1 "zvl32b 1.0, 1.1" "zvl32b" "1.0,1.1" "" (by decide) (by decide)]
    decide⟩

/-- C8: whenever the strict-mode classifier of `gen_clang_txt2csv.py` emits a
record for a line, that record is exactly the spec-side split: name is the
first whitespace-delimited token, version the second, and the description is
the rest of the overall-trimmed line. -/
theorem claim_C8 (line n v d : String)
    (h : gen_clang_txt2csv.process_line line = [[n, v, d]]) :
    (n, v, d) = strict_fields line := by
  unfold gen_clang_txt2csv.process_line at h
  by_cases h1 : gen_clang_txt2csv.is_skip_line line
  · rw [if_pos h1] at h; cases h
  · rw [if_neg h1] at h
    by_cases h2 : gen_clang_txt2csv.is_skip_pattern line
    · rw [if_pos h2] at h; cases h
    · rw [if_neg h2] at h
      cases hm : reFullMatch gen_clang_txt2csv.pattern line with
      | none => rw [hm] at h; cases h
      | some caps =>
        rw [hm] at h
        simp only [List.cons.injEq, and_true] at h
        obtain ⟨hn, hv, hd⟩ := h
        obtain ⟨w0, a, w1, b, w2, c, heq, hw0, hane, ha, hw1ne, hw1, hbne, hb,
          hw2ne, hw2, hcne, hg1, hg2, hg3⟩ := clang_match_decomp hm
        rw [strict_fields_of_decomp heq hw0 hane ha hw1ne hw1 hbne hb hw2ne hw2]
        rw [← hn, ← hv, ← hd, hg1, hg2, hg3]
        rfl

/-- Witness for C8 at the line of the spec example. -/
theorem claim_C8_witness :
    gen_clang_txt2csv.process_line "  zba   1.0.0   Bit manipulation (address)" =
      [["zba", "1.0.0", "Bit manipulation (address)"]] ∧
    (("zba" : String), ("1.0.0" : String), ("Bit manipulation (address)" : String)) =
      strict_fields "  zba   1.0.0   Bit manipulation (address)" :=
  ⟨by decide,
    claim_C8 "  zba   1.0.0   Bit manipulation (address)" "zba" "1.0.0"
      "Bit manipulation (address)" (by decide)⟩

/-- C9 (counterexample to the claim as stated): the line
`"Supported extensions"` is not matched by the strict-mode noise detection
at all: neither the boilerplate-substring list of `gen_clang_txt2csv.py` nor
its skip patterns fire on it, even though it produces no record. -/
theorem claim_C9_counterexample :
    gen_clang_txt2csv.is_skip_line "Supported extensions" = false ∧
    gen_clang_txt2csv.is_skip_pattern "Supported extensions" = false ∧
    gen_clang_txt2csv.process_line "Supported extensions" = [] := by decide

/-- C9 (amended): the line `"Supported extensions"` produces no record in
either mode; in lenient mode it is skipped by the noise rule (its skip list
contains `"Supported "`), while in strict mode it merely fails the
three-field data pattern. -/
theorem claim_C9 :
    gen_txt2csv.is_skip_line (pyStrip "Supported extensions") = true ∧
    gen_txt2csv.process_line "Supported extensions" = [] ∧
    gen_clang_txt2csv.process_line "Supported extensions" = [] := by decide

namespace merge_riscv_extensions

theorem read_all_two {p q : String} {A B : Csv}
    {files : List (String × List (String × ExtData))}
    (h : read_all [(p, A), (q, B)] = some files) :
    ∃ eA eB, read_csv_file A = some eA ∧ read_csv_file B = some eB ∧
      files = [(p, eA), (q, eB)] := by
  simp only [read_all, Option.bind_eq_bind, Option.bind_eq_some,
    Option.some.injEq] at h
  obtain ⟨eA, hA, r, ⟨eB, hB, r', hr', hrr⟩, hf⟩ := h
  cases hr'
  cases hrr
  exact ⟨eA, eB, hA, hB, hf.symm⟩

/-- C2 (counterexample to the claim as stated): within one source, a later
row for the same key overwrites an earlier non-empty description with an
empty one, so the merged description is not the first non-empty description
encountered in row order. -/
theorem claim_C2_counterexample :
    merge_csv_files
        [("f", [["Name", "Version", "Description"], ["a", "1", "descX"], ["a", "1", ""]])]
        true
      = some [["Name", "Version", "Description", "f"], ["a", "1", "", "Y"]] ∧
    ("descX" : String) ≠ "" := by
  exact ⟨by decide, by decide⟩

/-- C2 (amended): for every merged key, the stored description is the first
non-empty entry of the per-source description sequence, where each source
contributes the description its `read_csv_file` dict holds for that key
(that is, the last row with that key in that source); once non-empty, no
later source changes it. -/
theorem claim_C2 (inputs : List (String × Csv))
    (files : List (String × List (String × ExtData)))
    (h : read_all inputs = some files) (k : String) (e : MergeEntry)
    (hk : (build_all files).lookup k = some e) :
    e.description =
      ((files.filterMap fun cx => (cx.2.lookup k).map ExtData.description).filter
        fun d => d ≠ "").headD "" :=
  desc_build_all (read_all_elim h).2 hk

/-- Witness for C2: a key whose first source has an empty description and
whose second source fills it in. -/
theorem claim_C2_witness :
    (build_all [("f1", [("a-1", ⟨"a", "1", ""⟩)]),
        ("f2", [("a-1", ⟨"a", "1", "hello"⟩)])]).lookup "a-1"
      = some ⟨"a", "1", "hello", ["f1", "f2"]⟩ ∧
    (⟨"a", "1", "hello", ["f1", "f2"]⟩ : MergeEntry).description =
      (([("f1", [("a-1", (⟨"a", "1", ""⟩ : ExtData))]),
          ("f2", [("a-1", ⟨"a", "1", "hello"⟩)])].filterMap fun cx =>
            (cx.2.lookup "a-1").map ExtData.description).filter
        fun d => d ≠ "").headD "" := by
  have h1 : read_all [("f1", [["Name", "Version"], ["a", "1"]]),
      ("f2", [["Name", "Version", "Description"], ["a", "1", "hello"]])]
      = some [("f1", [("a-1", ⟨"a", "1", ""⟩)]),
        ("f2", [("a-1", ⟨"a", "1", "hello"⟩)])] := by decide
  have h2 : (build_all [("f1", [("a-1", (⟨"a", "1", ""⟩ : ExtData))]),
      ("f2", [("a-1", ⟨"a", "1", "hello"⟩)])]).lookup "a-1"
      = some ⟨"a", "1", "hello", ["f1", "f2"]⟩ := by decide
  exact ⟨h2, claim_C2 _ _ h1 "a-1" _ h2⟩

/-- C3: in every merged output, the data rows are sorted ascending by the
`(name, version)` pair under plain code-point string order.  (The concrete
`("sv","1.0"), ("sv","0.9"), ("a","1.0")` example is its witness.) -/
theorem claim_C3 (inputs : List (String × Csv)) (flag : Bool)
    (hdr : List String) (rows : List (List String))
    (h : merge_csv_files inputs flag = some (hdr :: rows)) :
    rows.Pairwise row_le := by
  unfold merge_csv_files at h
  cases hra : read_all inputs with
  | none => rw [hra] at h; cases h
  | some files =>
    rw [hra] at h
    simp only [Option.map_some', Option.some.injEq] at h
    have hs := @merge_output_tail_sorted (inputs.map Prod.fst) (build_all files) flag
    have ht := congrArg List.tail h
    simp only [List.tail_cons] at ht
    rw [← ht]
    exact hs

/-- Witness for C3 at the keys of the spec example. -/
theorem claim_C3_witness :
    merge_csv_files [("f", [["Name", "Version"], ["sv", "1.0"], ["sv", "0.9"], ["a", "1.0"]])]
        true
      = some [["Name", "Version", "Description", "f"],
          ["a", "1.0", "", "Y"], ["sv", "0.9", "", "Y"], ["sv", "1.0", "", "Y"]] ∧
    ([["a", "1.0", "", "Y"], ["sv", "0.9", "", "Y"], ["sv", "1.0", "", "Y"]] :
      List (List String)).Pairwise row_le :=
  ⟨by decide,
    claim_C3 [("f", [["Name", "Version"], ["sv", "1.0"], ["sv", "0.9"], ["a", "1.0"]])] true
      ["Name", "Version", "Description", "f"]
      [["a", "1.0", "", "Y"], ["sv", "0.9", "", "Y"], ["sv", "1.0", "", "Y"]] (by decide)⟩

/-- C4: merging sources `[A, B]` and `[B, A]` yields the same key set, and
for every key and source the same Y/N presence cell; only the column order
differs. -/
theorem claim_C4 (pA pB : String) (A B : Csv)
    (mAB mBA : List (String × MergeEntry))
    (h₁ : merged_index [(pA, A), (pB, B)] = some mAB)
    (h₂ : merged_index [(pB, B), (pA, A)] = some mBA) :
    (∀ k, has_key mAB k ↔ has_key mBA k) ∧
    (∀ k s, flag_cell mAB k s = flag_cell mBA k s) := by
  classical
  unfold merged_index at h₁ h₂
  cases hrA : read_all [(pA, A), (pB, B)] with
  | none => rw [hrA] at h₁; cases h₁
  | some fAB =>
  cases hrB : read_all [(pB, B), (pA, A)] with
  | none => rw [hrB] at h₂; cases h₂
  | some fBA =>
  rw [hrA] at h₁
  rw [hrB] at h₂
  simp only [Option.map_some', Option.some.injEq] at h₁ h₂
  obtain ⟨eA, eB, hA, hB, rfl⟩ := read_all_two hrA
  obtain ⟨eB', eA', hB', hA', rfl⟩ := read_all_two hrB
  rw [hA] at hA'
  rw [hB] at hB'
  cases hA'
  cases hB'
  subst h₁
  subst h₂
  have hiff : ∀ k s, flagP (build_all [(pA, eA), (pB, eB)]) k s ↔
      flagP (build_all [(pB, eB), (pA, eA)]) k s := by
    intro k s
    rw [flagP_build_all, flagP_build_all]
    simp only [List.mem_cons, List.mem_singleton, List.not_mem_nil, or_false]
    constructor
    · rintro ⟨x, (hx | hx), hex⟩ <;> exact ⟨x, by tauto, hex⟩
    · rintro ⟨x, (hx | hx), hex⟩ <;> exact ⟨x, by tauto, hex⟩
  constructor
  · intro k
    rw [has_key_build_all, has_key_build_all]
    simp only [List.mem_cons, List.mem_singleton, List.not_mem_nil, or_false]
    constructor
    · rintro ⟨c, x, (hx | hx), hex⟩ <;> exact ⟨c, x, by tauto, hex⟩
    · rintro ⟨c, x, (hx | hx), hex⟩ <;> exact ⟨c, x, by tauto, hex⟩
  · intro k s
    rw [flag_cell_eq_ite, flag_cell_eq_ite]
    exact if_congr (hiff k s) rfl rfl

/-- Witness for C4 on two one-row sources. -/
theorem claim_C4_witness :
    (∀ k, has_key (build_all [("fa", [("x-1", ⟨"x", "1", ""⟩)]),
        ("fb", [("y-1", ⟨"y", "1", ""⟩)])]) k ↔
      has_key (build_all [("fb", [("y-1", ⟨"y", "1", ""⟩)]),
        ("fa", [("x-1", ⟨"x", "1", ""⟩)])]) k) ∧
    (∀ k s, flag_cell (build_all [("fa", [("x-1", ⟨"x", "1", ""⟩)]),
        ("fb", [("y-1", ⟨"y", "1", ""⟩)])]) k s =
      flag_cell (build_all [("fb", [("y-1", ⟨"y", "1", ""⟩)]),
        ("fa", [("x-1", ⟨"x", "1", ""⟩)])]) k s) :=
  claim_C4 "fa" "fb" [["Name", "Version"], ["x", "1"]] [["Name", "Version"], ["y", "1"]]
    _ _ (by decide) (by decide)

/-- C5 (counterexample to the claim as stated): merging a single unsorted
file does not reproduce the file's parsed row order; the merge sorts by
`(name, version)`, so the output differs from the parsed content extended
with a `"Y"` column. -/
theorem claim_C5_counterexample :
    merge_csv_files [("f", [["Name", "Version"], ["b", "1"], ["a", "1"]])] true
      = some [["Name", "Version", "Description", "f"],
          ["a", "1", "", "Y"], ["b", "1", "", "Y"]] ∧
    some [["Name", "Version", "Description", "f"],
        ["a", "1", "", "Y"], ["b", "1", "", "Y"]] ≠
      some [["Name", "Version", "Description", "f"],
        ["b", "1", "", "Y"], ["a", "1", "", "Y"]] := by
  exact ⟨by decide, by decide⟩

/-- C5 (amended): merging an empty list of input files is an error and no
merge is performed; merging exactly one file yields its parsed records
(key-deduplicated), each extended with a single all-`"Y"` presence cell, in
`(name, version)` sorted order rather than file order. -/
theorem claim_C5 (fsys : List (String × Csv)) (nd : Bool) (c : String)
    (csv : Csv) (exts : List (String × ExtData)) (flag : Bool)
    (h : read_csv_file csv = some exts) :
    main fsys [] nd = .error "Error: No input files found after expanding wildcards" ∧
    ∃ rows, merge_csv_files [(c, csv)] flag =
        some ((["Name", "Version"] ++ (if flag then ["Description"] else []) ++ [c]) :: rows) ∧
      rows.Perm (exts.map fun ke =>
        [ke.2.name, ke.2.version] ++ (if flag then [ke.2.description] else []) ++ ["Y"]) ∧
      rows.Pairwise row_le :=
  ⟨rfl, merge_single_file h flag⟩

/-- Witness for C5 on a concrete one-file merge. -/
theorem claim_C5_witness :
    main [] [] false = .error "Error: No input files found after expanding wildcards" ∧
    ∃ rows, merge_csv_files [("f", [["Name", "Version"], ["b", "1"], ["a", "1"]])] true =
        some ((["Name", "Version"] ++ (if true then ["Description"] else []) ++ ["f"]) :: rows) ∧
      rows.Perm ([("b-1", (⟨"b", "1", ""⟩ : ExtData)), ("a-1", ⟨"a", "1", ""⟩)].map fun ke =>
        [ke.2.name, ke.2.version] ++ (if true then [ke.2.description] else []) ++ ["Y"]) ∧
      rows.Pairwise row_le :=
  claim_C5 [] false "f" [["Name", "Version"], ["b", "1"], ["a", "1"]]
    [("b-1", ⟨"b", "1", ""⟩), ("a-1", ⟨"a", "1", ""⟩)] true (by decide)

/-- C6: if any input path of a merge is missing from the file system, `main`
aborts with an error naming a missing input file, and no output table is
produced (the result is an `Except.error`, and the model only yields a table
in the `ok` case, mirroring that the script validates and reads all inputs
before opening the output). -/
theorem claim_C6 (fsys : List (String × Csv)) (input_files : List String)
    (nd : Bool) (f : String) (hf : f ∈ input_files)
    (hmiss : fsys.lookup f = none) :
    ∃ g, g ∈ input_files ∧ fsys.lookup g = none ∧
      main fsys input_files nd =
        .error (strCat "Error: Input file "
          (strCat g " does not exist or is not a file.")) := by
  have hfind : (first_missing fsys input_files).isSome := by
    rw [first_missing, List.find?_isSome]
    exact ⟨f, hf, by simp [hmiss]⟩
  obtain ⟨g, hg⟩ := Option.isSome_iff_exists.mp hfind
  have hg' : input_files.find? (fun f => (fsys.lookup f).isNone) = some g := by
    simpa [first_missing] using hg
  have hgm : fsys.lookup g = none := by
    have := List.find?_some hg'
    simpa using this
  refine ⟨g, List.mem_of_find?_eq_some hg', hgm, ?_⟩
  have hni : input_files.isEmpty = false := by
    cases input_files with
    | nil => cases hf
    | cons _ _ => rfl
  unfold main
  simp only [hni, Bool.false_eq_true, if_false, hg]

/-- Witness for C6 with one existing and one missing input. -/
theorem claim_C6_witness :
    ∃ g, g ∈ ["a.csv", "missing.csv"] ∧
      ([("a.csv", [["Name", "Version"], ["x", "1"]])] :
        List (String × Csv)).lookup g = none ∧
      main [("a.csv", [["Name", "Version"], ["x", "1"]])] ["a.csv", "missing.csv"] false =
        .error (strCat "Error: Input file "
          (strCat g " does not exist or is not a file.")) :=
  claim_C6 [("a.csv", [["Name", "Version"], ["x", "1"]])] ["a.csv", "missing.csv"]
    false "missing.csv" (by decide) (by decide)

theorem read_rows_desc_empty (hd : Bool) : ∀ (rows : Csv),
    (hd = false ∨ ∀ r ∈ rows, r.length ≤ 2) →
    ∀ (acc : List (String × ExtData)),
    (∀ k e, acc.lookup k = some e → e.description = "") →
    ∀ k e, (rows.foldl (read_row_step hd) acc).lookup k = some e →
      e.description = "" := by
  intro rows
  induction rows with
  | nil => intro _ acc hacc k e he; exact hacc k e he
  | cons row rest ih =>
    intro hcase acc hacc k e he
    rw [List.foldl_cons] at he
    have hcase' : hd = false ∨ ∀ r ∈ rest, r.length ≤ 2 := by
      rcases hcase with h | h
      · exact Or.inl h
      · exact Or.inr fun r hr => h r (List.mem_cons_of_mem _ hr)
    refine ih hcase' _ ?_ k e he
    intro k' e' he'
    unfold read_row_step at he'
    by_cases hl : row.length < 2
    · rw [if_pos hl] at he'
      exact hacc k' e' he'
    · rw [if_neg hl] at he'
      rw [lookup_dict_insert] at he'
      by_cases hk : k' = make_key (pyStrip (row.getD 0 "")) (pyStrip (row.getD 1 ""))
      · rw [if_pos hk] at he'
        cases he'
        show (if hd then (if row.length > 2 then row.getD 2 "" else "") else "") = ""
        rcases hcase with h | h
        · simp [h]
        · have h2 := h row (List.mem_cons_self _ _)
          simp [Nat.not_lt.mpr h2]
      · rw [if_neg hk] at he'
        exact hacc k' e' he'

/-- C7: the reader detects the optional `Description` column from the header
row; when it is absent, or when every data row is too short to hold it,
every parsed record's description is the empty string, and reading such a
file is never an error (the reader returns a result for any header plus
rows). -/
theorem claim_C7 (headers : List String) (rows : Csv)
    (hcase : headers.contains "Description" = false ∨ ∀ r ∈ rows, r.length ≤ 2) :
    read_csv_file (headers :: rows) =
      some (read_rows (headers.contains "Description") rows) ∧
    ∀ k e, (read_rows (headers.contains "Description") rows).lookup k = some e →
      e.description = "" := by
  refine ⟨rfl, ?_⟩
  rw [read_rows]
  exact read_rows_desc_empty (headers.contains "Description") rows hcase []
    (fun k e he => by cases he)

/-- Witness for C7: no `Description` header, yet a long data row. -/
theorem claim_C7_witness :
    read_csv_file [["Name", "Version"], ["a", "1", "junk"]]
      = some [("a-1", ⟨"a", "1", ""⟩)] ∧
    (⟨"a", "1", ""⟩ : ExtData).description = "" := by
  refine ⟨by decide, ?_⟩
  exact (claim_C7 ["Name", "Version"] [["a", "1", "junk"]] (Or.inl (by decide))).2
    "a-1" ⟨"a", "1", ""⟩ (by decide)

/-- C10 (counterexample to the claim as stated): when the two colliding rows
sit in the same source, the dict overwrite in `read_csv_file` makes the
*last* such row win, so the merged row carries the second row's name and
version, not the first's. -/
theorem claim_C10_counterexample :
    merge_csv_files [("f", [["Name", "Version"], ["a-b", "c"], ["a", "b-c"]])] true
      = some [["Name", "Version", "Description", "f"], ["a", "b-c", "", "Y"]] := by
  decide

/-- C10 (amended): the key construction `name + "-" + version` is not
injective: `("a-b","c")` and `("a","b-c")` are distinct pairs with the same
key, and such rows merge into a single output row.  When the colliding rows
come from different sources, the name and version of the first processed
source win; within a single source the last row wins. -/
theorem claim_C10 :
    (make_key "a-b" "c" = make_key "a" "b-c" ∧
      (("a-b", "c") : String × String) ≠ ("a", "b-c")) ∧
    merge_csv_files
        [("f1", [["Name", "Version"], ["a-b", "c"]]),
         ("f2", [["Name", "Version"], ["a", "b-c"]])] true
      = some [["Name", "Version", "Description", "f1", "f2"],
          ["a-b", "c", "", "Y", "Y"]] := by
  exact ⟨⟨by decide, by decide⟩, by decide⟩

end merge_riscv_extensions

end GenExt
